import Mathlib

/-!
Verification of the Kieskompas coalition-aggregation and URL-state
synchronization logic (parser.js / generate-data.js).

JavaScript strings are modelled as lists of character code points
(`Str := List Nat`), JavaScript numbers as rationals, and nullable
fields as `Option`.  The selection is modelled as the list of selected
parties (for the aggregate computations, which only fold over it) or as
the per-checkbox boolean list (for the URL round trip, where position
matters).
-/

namespace Kieskompas

/-- JavaScript strings as lists of character code points. -/
abbrev Str := List Nat

/-- Embed a Lean string literal as a list of code points. -/
def str (s : String) : Str := s.data.map Char.toNat

/-- A 2D position on the compass canvas, in percentage coordinates. -/
structure Pos where
  x : ℚ
  y : ℚ
deriving DecidableEq

/-- One axis of a party's political position: a percentage value plus a
direction label such as "links" / "rechts". -/
structure AxisPosition where
  value : ℚ
  direction : Str
deriving DecidableEq

/-- The two optional political axes of a party. -/
structure PoliticalPosition where
  horizontal : Option AxisPosition
  vertical : Option AxisPosition
deriving DecidableEq

/-- Election results for one party: a seat count. -/
structure ElectionResult where
  seats : ℚ
deriving DecidableEq

/-- A party record as produced by the offline extractor and consumed by
the UI controller. -/
structure Party where
  name : Str
  shortName : Str
  position : Pos
  politicalPosition : PoliticalPosition
  electionResults2025 : Option ElectionResult
deriving DecidableEq

/-- Seat weight used by the weighted position average in
`UIController.calculateAverage`: the seat count when election results
are present, otherwise 1 (parser.js lines 338-340). -/
def positionWeight (p : Party) : ℚ :=
  match p.electionResults2025 with
  | some er => er.seats
  | none => 1

/-- `UIController.calculateAverage` (parser.js lines 324-368): `none`
for the empty selection; otherwise the seat-weighted mean of positions
(falling back to dividing by the selection size when the total weight is
not positive) or the plain arithmetic mean. -/
def calculateAverage (selected : List Party) (useWeighted : Bool) : Option Pos :=
  if selected.length = 0 then none
  else if useWeighted then
    let sumX := (selected.map fun p => p.position.x * positionWeight p).sum
    let sumY := (selected.map fun p => p.position.y * positionWeight p).sum
    let totalSeats := (selected.map positionWeight).sum
    some { x := if 0 < totalSeats then sumX / totalSeats else sumX / selected.length
         , y := if 0 < totalSeats then sumY / totalSeats else sumY / selected.length }
  else
    some { x := (selected.map fun p => p.position.x).sum / selected.length
         , y := (selected.map fun p => p.position.y).sum / selected.length }

/-- Icon half-size offset applied by `UIController.updateCompassMarker`
(parser.js line 389). -/
def iconOffset : ℚ := 5

/-- `UIController.updateCompassMarker` (parser.js lines 370-427),
abstracted to the marker position it draws: no marker when
`calculateAverage` returns the `null` sentinel, otherwise the average
offset to the icon center. -/
def updateCompassMarker (selected : List Party) (useWeighted : Bool) : Option Pos :=
  match calculateAverage selected useWeighted with
  | none => none
  | some avg => some { x := avg.x + iconOffset, y := avg.y + iconOffset }

/-- The unweighted centroid as the specification describes it: the
arithmetic mean of the selected parties' positions. -/
def unweightedCentroid (selected : List Party) : Pos :=
  { x := (selected.map fun p => p.position.x).sum / selected.length
  , y := (selected.map fun p => p.position.y).sum / selected.length }

/-- The seat-weighted centroid as the specification describes it, with a
party lacking seat data given weight 1. -/
def specWeightedCentroid (selected : List Party) : Pos :=
  { x := (selected.map fun p => p.position.x * positionWeight p).sum /
           (selected.map positionWeight).sum
  , y := (selected.map fun p => p.position.y * positionWeight p).sum /
           (selected.map positionWeight).sum }

/-- Scale the seat count of a party by a constant (parties lacking seat
data are unchanged, since they have no seat count). -/
def scaleSeats (c : ℚ) (p : Party) : Party :=
  { p with electionResults2025 :=
      p.electionResults2025.map fun er => { seats := c * er.seats } }

/-- Seat count with missing election data treated as zero, as in the
seat-total reduction of `UIController.handlePartySelection`
(parser.js lines 222-231). -/
def seatsOrZero (p : Party) : ℚ :=
  match p.electionResults2025 with
  | some er => er.seats
  | none => 0

/-- The seat-total reduction of `UIController.handlePartySelection`
(parser.js lines 222-231): a left fold starting from 0. -/
def computeSeatTotal (selected : List Party) : ℚ :=
  selected.foldl (fun sum p => sum + seatsOrZero p) 0

/-- A list of nonnegative rationals summing to zero is all zeros. -/
theorem sum_eq_zero_all_zero : ∀ l : List ℚ, (∀ x ∈ l, 0 ≤ x) → l.sum = 0 →
    ∀ x ∈ l, x = 0 := by
  intro l
  induction l with
  | nil => intro _ _ x hx; cases hx
  | cons a t ih =>
    intro hnn hsum x hx
    have ha : 0 ≤ a := hnn a (List.mem_cons_self a t)
    have ht : 0 ≤ t.sum := List.sum_nonneg fun y hy => hnn y (List.mem_cons_of_mem a hy)
    rw [List.sum_cons] at hsum
    have ha0 : a = 0 := by linarith
    have ht0 : t.sum = 0 := by linarith
    rcases List.mem_cons.mp hx with h | h
    · exact h ▸ ha0
    · exact ih (fun y hy => hnn y (List.mem_cons_of_mem a hy)) ht0 x h

/-- A list of nonnegative rationals with a positive member has positive sum. -/
theorem sum_pos_of_mem_pos : ∀ l : List ℚ, (∀ x ∈ l, 0 ≤ x) →
    ∀ x ∈ l, 0 < x → 0 < l.sum := by
  intro l
  induction l with
  | nil => intro _ x hx; cases hx
  | cons a t ih =>
    intro hnn x hx hxpos
    have ht : 0 ≤ t.sum := List.sum_nonneg fun y hy => hnn y (List.mem_cons_of_mem a hy)
    have ha : 0 ≤ a := hnn a (List.mem_cons_self a t)
    rw [List.sum_cons]
    rcases List.mem_cons.mp hx with h | h
    · subst h; linarith
    · have := ih (fun y hy => hnn y (List.mem_cons_of_mem a hy)) x h hxpos
      linarith

/-- Folding addition of a projection over a list equals the initial
value plus the sum of the projected list. -/
theorem foldl_add_eq_sum (g : Party → ℚ) :
    ∀ (l : List Party) (a : ℚ), l.foldl (fun sum p => sum + g p) a = a + (l.map g).sum := by
  intro l
  induction l with
  | nil => intro a; simp
  | cons p t ih => intro a; simp [ih]; ring

/-- Concrete party records used as witness inputs; field shapes follow
the extractor's output (generate-data.js). -/
def vvd : Party :=
  { name := str "Volkspartij voor Vrijheid en Democratie"
  , shortName := str "VVD"
  , position := { x := 70, y := 40 }
  , politicalPosition :=
      { horizontal := some { value := 70, direction := str "rechts" }
      , vertical := some { value := 40, direction := str "conservatief" } }
  , electionResults2025 := some { seats := 22 } }

/-- Concrete party record used as a witness input. -/
def d66 : Party :=
  { name := str "Democraten 66"
  , shortName := str "D66"
  , position := { x := 55, y := 20 }
  , politicalPosition :=
      { horizontal := some { value := 10, direction := str "rechts" }
      , vertical := some { value := 20, direction := str "progressief" } }
  , electionResults2025 := some { seats := 26 } }

/-- Concrete party record used as a witness input. -/
def pvdagl : Party :=
  { name := str "Partij van de Arbeid/GroenLinks"
  , shortName := str "PvdA-GL"
  , position := { x := 20, y := 60 }
  , politicalPosition :=
      { horizontal := some { value := 60, direction := str "links" }
      , vertical := some { value := 30, direction := str "progressief" } }
  , electionResults2025 := some { seats := 20 } }

/-- Concrete party record with zero seats (as NSC in the 2025 results). -/
def nsc : Party :=
  { name := str "Nieuw Sociaal Contract"
  , shortName := str "NSC"
  , position := { x := 50, y := 50 }
  , politicalPosition :=
      { horizontal := some { value := 20, direction := str "rechts" }
      , vertical := some { value := 10, direction := str "conservatief" } }
  , electionResults2025 := some { seats := 0 } }

/-- Concrete party record with one seat. -/
def volt : Party :=
  { name := str "Volt"
  , shortName := str "Volt"
  , position := { x := 40, y := 10 }
  , politicalPosition :=
      { horizontal := some { value := 30, direction := str "links" }
      , vertical := some { value := 50, direction := str "progressief" } }
  , electionResults2025 := some { seats := 1 } }

/-- Concrete party record lacking election results, the case the
extractor produces when a party is absent from the 2025 results map. -/
def noData : Party :=
  { name := str "Nieuwe Partij"
  , shortName := str "NP"
  , position := { x := 100, y := 0 }
  , politicalPosition := { horizontal := none, vertical := none }
  , electionResults2025 := none }

/-- C4: for every non-empty selection, the unweighted variant of
`calculateAverage` is the arithmetic-mean centroid of the selected
parties' positions. -/
theorem calculateAverage_unweighted_centroid (selected : List Party)
    (h : selected ≠ []) :
    calculateAverage selected false = some (unweightedCentroid selected) := by
  have hl : selected.length ≠ 0 := fun hh => h (List.length_eq_zero.mp hh)
  simp [calculateAverage, unweightedCentroid, hl]

/-- Witness for C4 on a concrete two-party selection. -/
theorem calculateAverage_unweighted_centroid_witness :
    calculateAverage [vvd, pvdagl] false = some (unweightedCentroid [vvd, pvdagl]) :=
  calculateAverage_unweighted_centroid [vvd, pvdagl] (List.cons_ne_nil _ _)

/-- C5: on a non-empty selection whose total seat weight is zero, the
weighted variant of `calculateAverage` divides the accumulated weighted
sums by the selection size instead of by the zero total. -/
theorem calculateAverage_weighted_zero_total (selected : List Party)
    (h : selected ≠ [])
    (hz : (selected.map positionWeight).sum = 0) :
    calculateAverage selected true =
      some { x := (selected.map fun p => p.position.x * positionWeight p).sum / selected.length
           , y := (selected.map fun p => p.position.y * positionWeight p).sum / selected.length } := by
  have hl : selected.length ≠ 0 := fun hh => h (List.length_eq_zero.mp hh)
  simp [calculateAverage, hz, hl]

/-- Witness for C5: a single selected party with zero recorded seats. -/
theorem calculateAverage_weighted_zero_total_witness :
    calculateAverage [nsc] true =
      some { x := ([nsc].map fun p => p.position.x * positionWeight p).sum / ([nsc] : List Party).length
           , y := ([nsc].map fun p => p.position.y * positionWeight p).sum / ([nsc] : List Party).length } :=
  calculateAverage_weighted_zero_total [nsc] (List.cons_ne_nil _ _)
    (by simp [positionWeight, nsc])

/-- C7: `calculateAverage` returns the `null` sentinel exactly on the
empty selection, for either weighting mode, and the marker drawer
checks the sentinel and draws no marker then. -/
theorem calculateAverage_none_iff_empty (selected : List Party) (useWeighted : Bool) :
    (calculateAverage selected useWeighted = none ↔ selected = []) ∧
    (selected = [] → updateCompassMarker selected useWeighted = none) := by
  constructor
  · constructor
    · intro h
      by_contra hne
      have hl : selected.length ≠ 0 := fun hh => hne (List.length_eq_zero.mp hh)
      unfold calculateAverage at h
      rw [if_neg hl] at h
      cases useWeighted <;> simp at h
    · intro h
      subst h
      rfl
  · intro h
    subst h
    rfl

/-- Witness for C7 at the empty selection. -/
theorem calculateAverage_none_iff_empty_witness :
    calculateAverage ([] : List Party) true = none ∧
    updateCompassMarker ([] : List Party) true = none :=
  ⟨(calculateAverage_none_iff_empty [] true).1.mpr rfl,
   (calculateAverage_none_iff_empty [] true).2 rfl⟩

/-- C8: the seat-total fold equals the sum of seat counts with missing
election data treated as zero, and the seat total of the empty
selection is zero. -/
theorem computeSeatTotal_spec (selected : List Party) :
    computeSeatTotal selected = (selected.map seatsOrZero).sum ∧
    computeSeatTotal ([] : List Party) = 0 := by
  constructor
  · simpa using foldl_add_eq_sum seatsOrZero selected 0
  · rfl

/-- C10: when every selected party has election results and the
(nonnegative) seat counts sum to zero, the weighted average collapses
to the origin: the fallback divides weighted sums that are themselves
zero. -/
theorem calculateAverage_weighted_zero_seats_origin (selected : List Party)
    (hne : selected ≠ [])
    (hall : ∀ p ∈ selected, p.electionResults2025.isSome)
    (hnn : ∀ p ∈ selected, ∀ er, p.electionResults2025 = some er → 0 ≤ er.seats)
    (hz : computeSeatTotal selected = 0) :
    calculateAverage selected true = some { x := 0, y := 0 } := by
  have hl : selected.length ≠ 0 := fun hh => hne (List.length_eq_zero.mp hh)
  have hpw : ∀ p ∈ selected, positionWeight p = seatsOrZero p := by
    intro p hp
    have := hall p hp
    cases her : p.electionResults2025 with
    | none => rw [her] at this; cases this
    | some er => simp [positionWeight, seatsOrZero, her]
  have hmapeq : selected.map positionWeight = selected.map seatsOrZero :=
    List.map_congr_left hpw
  have hsum0 : (selected.map positionWeight).sum = 0 := by
    rw [hmapeq]
    have := foldl_add_eq_sum seatsOrZero selected 0
    rw [computeSeatTotal] at hz
    rw [this] at hz
    linarith
  have hwnn : ∀ x ∈ selected.map positionWeight, 0 ≤ x := by
    intro x hx
    rcases List.mem_map.mp hx with ⟨p, hp, rfl⟩
    cases her : p.electionResults2025 with
    | none => simp [positionWeight, her]
    | some er => simpa [positionWeight, her] using hnn p hp er her
  have hw0 : ∀ p ∈ selected, positionWeight p = 0 := by
    intro p hp
    exact sum_eq_zero_all_zero _ hwnn hsum0 _ (List.mem_map_of_mem positionWeight hp)
  have hx0 : (selected.map fun p => p.position.x * positionWeight p).sum = 0 := by
    apply List.sum_eq_zero
    intro x hx
    rcases List.mem_map.mp hx with ⟨p, hp, rfl⟩
    rw [hw0 p hp, mul_zero]
  have hy0 : (selected.map fun p => p.position.y * positionWeight p).sum = 0 := by
    apply List.sum_eq_zero
    intro y hy
    rcases List.mem_map.mp hy with ⟨p, hp, rfl⟩
    rw [hw0 p hp, mul_zero]
  simp [calculateAverage, hl, hsum0, hx0, hy0]

/-- Witness for C10: two zero-seat parties at positions away from the
origin (whose unweighted centroid is not the origin). -/
theorem calculateAverage_weighted_zero_seats_origin_witness :
    calculateAverage [nsc, { nsc with position := { x := 10, y := 30 } }] true =
      some { x := 0, y := 0 } := by
  apply calculateAverage_weighted_zero_seats_origin
  · exact List.cons_ne_nil _ _
  · intro p hp
    rcases List.mem_cons.mp hp with h | h
    · subst h; rfl
    · rcases List.mem_cons.mp h with h | h
      · subst h; rfl
      · cases h
  · intro p hp er her
    rcases List.mem_cons.mp hp with h | h
    · subst h
      simp [nsc] at her
      simp [← her]
    · rcases List.mem_cons.mp h with h | h
      · subst h
        simp [nsc] at her
        simp [← her]
      · cases h
  · simp [computeSeatTotal, seatsOrZero, nsc]

/-- Unfolding of the weighted branch of `calculateAverage` on a
non-empty selection. -/
theorem calculateAverage_weighted_unfold (selected : List Party)
    (hl : selected.length ≠ 0) :
    calculateAverage selected true =
      some { x := if 0 < (selected.map positionWeight).sum
                  then (selected.map fun p => p.position.x * positionWeight p).sum /
                         (selected.map positionWeight).sum
                  else (selected.map fun p => p.position.x * positionWeight p).sum /
                         selected.length
           , y := if 0 < (selected.map positionWeight).sum
                  then (selected.map fun p => p.position.y * positionWeight p).sum /
                         (selected.map positionWeight).sum
                  else (selected.map fun p => p.position.y * positionWeight p).sum /
                         selected.length } := by
  simp [calculateAverage, hl]

/-- Nonnegative seat data makes every position weight nonnegative (the
fallback weight is 1). -/
theorem positionWeight_nonneg (selected : List Party)
    (hnn : ∀ p ∈ selected, ∀ er, p.electionResults2025 = some er → 0 ≤ er.seats) :
    ∀ x ∈ selected.map positionWeight, 0 ≤ x := by
  intro x hx
  rcases List.mem_map.mp hx with ⟨p, hp, rfl⟩
  cases her : p.electionResults2025 with
  | none => simp [positionWeight, her]
  | some er => simpa [positionWeight, her] using hnn p hp er her

/-- Lift a seat-count bound stated via `seatsOrZero` to the form used as
a hypothesis by the averaging theorems. -/
theorem seats_nonneg_lift (l : List Party) (h : ∀ p ∈ l, 0 ≤ seatsOrZero p) :
    ∀ p ∈ l, ∀ er, p.electionResults2025 = some er → 0 ≤ er.seats := by
  intro p hp er her
  have h2 := h p hp
  simp only [seatsOrZero, her] at h2
  exact h2

/-- Concrete party with two seats at the origin, paired with `noData`
in the counterexample to the scaling-invariance half of C2. -/
def twoSeats : Party :=
  { name := str "Twee Zetels"
  , shortName := str "TZ"
  , position := { x := 0, y := 0 }
  , politicalPosition := { horizontal := none, vertical := none }
  , electionResults2025 := some { seats := 2 } }

/-- Counterexample to C2 as stated: scaling all seat counts by 2 moves
the weighted average when a selected party lacks seat data, since that
party's fallback weight of 1 does not scale with the rest. -/
theorem calculateAverage_scaling_counterexample :
    ([twoSeats, noData] : List Party) ≠ [] ∧ (0 : ℚ) < 2 ∧
    calculateAverage ([twoSeats, noData].map (scaleSeats 2)) true ≠
      calculateAverage [twoSeats, noData] true := by
  refine ⟨List.cons_ne_nil _ _, by norm_num, ?_⟩
  simp [calculateAverage, scaleSeats, positionWeight, twoSeats, noData]
  norm_num

/-- C2 (amended): on a non-empty selection with nonnegative seat data,
the weighted `calculateAverage` is the seat-weighted centroid with
fallback weight 1 for parties lacking seat data; and when every
selected party has seat data, the result is invariant under scaling all
seat counts by the same positive constant. -/
theorem calculateAverage_weighted_centroid (selected : List Party) (c : ℚ)
    (hc : 0 < c) (hne : selected ≠ [])
    (hnn : ∀ p ∈ selected, ∀ er, p.electionResults2025 = some er → 0 ≤ er.seats) :
    calculateAverage selected true = some (specWeightedCentroid selected) ∧
    ((∀ p ∈ selected, p.electionResults2025.isSome) →
      calculateAverage (selected.map (scaleSeats c)) true =
        calculateAverage selected true) := by
  have hl : selected.length ≠ 0 := fun hh => hne (List.length_eq_zero.mp hh)
  have hwnn := positionWeight_nonneg selected hnn
  constructor
  · rw [calculateAverage_weighted_unfold selected hl]
    by_cases hpos : 0 < (selected.map positionWeight).sum
    · simp [specWeightedCentroid, hpos]
    · have h0 : (selected.map positionWeight).sum = 0 :=
        le_antisymm (not_lt.mp hpos) (List.sum_nonneg hwnn)
      have hw0 : ∀ p ∈ selected, positionWeight p = 0 := fun p hp =>
        sum_eq_zero_all_zero _ hwnn h0 _ (List.mem_map_of_mem positionWeight hp)
      have hx0 : (selected.map fun p => p.position.x * positionWeight p).sum = 0 := by
        apply List.sum_eq_zero
        intro x hx
        rcases List.mem_map.mp hx with ⟨p, hp, rfl⟩
        rw [hw0 p hp, mul_zero]
      have hy0 : (selected.map fun p => p.position.y * positionWeight p).sum = 0 := by
        apply List.sum_eq_zero
        intro y hy
        rcases List.mem_map.mp hy with ⟨p, hp, rfl⟩
        rw [hw0 p hp, mul_zero]
      simp [specWeightedCentroid, hpos, h0, hx0, hy0]
  · intro hall
    have hlen : (selected.map (scaleSeats c)).length = selected.length := by
      simp
    have hl2 : (selected.map (scaleSeats c)).length ≠ 0 := by rw [hlen]; exact hl
    have hpw : ∀ p ∈ selected, positionWeight (scaleSeats c p) = c * positionWeight p := by
      intro p hp
      have := hall p hp
      cases her : p.electionResults2025 with
      | none => rw [her] at this; cases this
      | some er => simp [positionWeight, scaleSeats, her]
    have hmw : (selected.map (scaleSeats c)).map positionWeight =
        selected.map fun p => c * positionWeight p := by
      rw [List.map_map]
      exact List.map_congr_left fun p hp => hpw p hp
    have htot : ((selected.map (scaleSeats c)).map positionWeight).sum =
        c * (selected.map positionWeight).sum := by
      rw [hmw, List.sum_map_mul_left]
    have hmx : (selected.map (scaleSeats c)).map (fun p => p.position.x * positionWeight p) =
        selected.map fun p => c * (p.position.x * positionWeight p) := by
      rw [List.map_map]
      refine List.map_congr_left fun p hp => ?_
      have hpos : (scaleSeats c p).position = p.position := rfl
      simp only [Function.comp, hpos, hpw p hp]
      ring
    have hmy : (selected.map (scaleSeats c)).map (fun p => p.position.y * positionWeight p) =
        selected.map fun p => c * (p.position.y * positionWeight p) := by
      rw [List.map_map]
      refine List.map_congr_left fun p hp => ?_
      have hpos : (scaleSeats c p).position = p.position := rfl
      simp only [Function.comp, hpos, hpw p hp]
      ring
    have hsx : ((selected.map (scaleSeats c)).map (fun p => p.position.x * positionWeight p)).sum =
        c * ((selected.map fun p => p.position.x * positionWeight p).sum) := by
      rw [hmx, List.sum_map_mul_left]
    have hsy : ((selected.map (scaleSeats c)).map (fun p => p.position.y * positionWeight p)).sum =
        c * ((selected.map fun p => p.position.y * positionWeight p).sum) := by
      rw [hmy, List.sum_map_mul_left]
    rw [calculateAverage_weighted_unfold _ hl2, calculateAverage_weighted_unfold _ hl,
      htot, hsx, hsy, hlen]
    by_cases hpos : 0 < (selected.map positionWeight).sum
    · have hcpos : 0 < c * (selected.map positionWeight).sum := mul_pos hc hpos
      rw [if_pos hpos, if_pos hcpos, if_pos hpos, if_pos hcpos,
        mul_div_mul_left _ _ (ne_of_gt hc), mul_div_mul_left _ _ (ne_of_gt hc)]
    · have h0 : (selected.map positionWeight).sum = 0 :=
        le_antisymm (not_lt.mp hpos) (List.sum_nonneg hwnn)
      have hw0 : ∀ p ∈ selected, positionWeight p = 0 := fun p hp =>
        sum_eq_zero_all_zero _ hwnn h0 _ (List.mem_map_of_mem positionWeight hp)
      have hx0 : (selected.map fun p => p.position.x * positionWeight p).sum = 0 := by
        apply List.sum_eq_zero
        intro x hx
        rcases List.mem_map.mp hx with ⟨p, hp, rfl⟩
        rw [hw0 p hp, mul_zero]
      have hy0 : (selected.map fun p => p.position.y * positionWeight p).sum = 0 := by
        apply List.sum_eq_zero
        intro y hy
        rcases List.mem_map.mp hy with ⟨p, hp, rfl⟩
        rw [hw0 p hp, mul_zero]
      rw [h0, hx0, hy0]
      simp

/-- Witness for the amended C2 on a concrete two-party selection with
scale factor 3. -/
theorem calculateAverage_weighted_centroid_witness :
    calculateAverage [vvd, pvdagl] true = some (specWeightedCentroid [vvd, pvdagl]) ∧
    calculateAverage ([vvd, pvdagl].map (scaleSeats 3)) true =
      calculateAverage [vvd, pvdagl] true := by
  have hnn : ∀ p ∈ ([vvd, pvdagl] : List Party), ∀ er,
      p.electionResults2025 = some er → 0 ≤ er.seats := by
    apply seats_nonneg_lift
    simp only [List.forall_mem_cons, List.forall_mem_nil]
    norm_num [vvd, pvdagl, seatsOrZero]
  have h := calculateAverage_weighted_centroid [vvd, pvdagl] 3 (by norm_num)
    (List.cons_ne_nil _ _) hnn
  refine ⟨h.1, h.2 ?_⟩
  simp only [List.forall_mem_cons, List.forall_mem_nil]
  simp [vvd, pvdagl]

/-- Per-party weight used by `UIController.updateCoalitionStats`
(parser.js lines 277-280): the seat count when weighting is on and
election results are present, otherwise 1. -/
def statsWeight (useWeighted : Bool) (p : Party) : ℚ :=
  match useWeighted, p.electionResults2025 with
  | true, some er => er.seats
  | _, _ => 1

/-- The signed horizontal value of `updateCoalitionStats` (parser.js
lines 283-294): the axis value, negated unless the direction label is
"rechts"; a missing axis has value 0. -/
def horizontalSigned (p : Party) : ℚ :=
  let v := match p.politicalPosition.horizontal with
           | some a => a.value
           | none => 0
  if p.politicalPosition.horizontal.map AxisPosition.direction = some (str "rechts") then v
  else -v

/-- The signed vertical value of `updateCoalitionStats` (parser.js
lines 286-298): the axis value, negated unless the direction label is
"conservatief"; a missing axis has value 0. -/
def verticalSigned (p : Party) : ℚ :=
  let v := match p.politicalPosition.vertical with
           | some a => a.value
           | none => 0
  if p.politicalPosition.vertical.map AxisPosition.direction = some (str "conservatief") then v
  else -v

/-- The divisor of the signed-axis averages in `updateCoalitionStats`
(parser.js lines 302, 305-306): the total of the per-party weights. -/
def signedTotalWeight (selected : List Party) (useWeighted : Bool) : ℚ :=
  (selected.map (statsWeight useWeighted)).sum

/-- The coalition statistics rendered by `updateCoalitionStats`: the two
signed means together with the direction labels and magnitudes shown to
the user. -/
structure CoalitionStats where
  avgHorizontal : ℚ
  avgVertical : ℚ
  horizontalLabel : Str
  verticalLabel : Str
  horizontalValue : ℚ
  verticalValue : ℚ
deriving DecidableEq

/-- `UIController.updateCoalitionStats` (parser.js lines 261-322),
abstracted to the statistics it renders: nothing on an empty selection,
otherwise the weighted signed means, their sign-derived direction
labels, and their absolute values. -/
def updateCoalitionStats (selected : List Party) (useWeighted : Bool) :
    Option CoalitionStats :=
  if selected.length = 0 then none
  else
    let sumHorizontal := (selected.map fun p => horizontalSigned p * statsWeight useWeighted p).sum
    let sumVertical := (selected.map fun p => verticalSigned p * statsWeight useWeighted p).sum
    let avgHorizontal := sumHorizontal / signedTotalWeight selected useWeighted
    let avgVertical := sumVertical / signedTotalWeight selected useWeighted
    some { avgHorizontal := avgHorizontal
         , avgVertical := avgVertical
         , horizontalLabel := if 0 ≤ avgHorizontal then str "rechts" else str "links"
         , verticalLabel := if 0 ≤ avgVertical then str "conservatief" else str "progressief"
         , horizontalValue := |avgHorizontal|
         , verticalValue := |avgVertical| }

/-- The signed horizontal scalar as the specification describes it:
"rechts" maps to the positive value, "links" to the negative one, and a
missing axis contributes 0. -/
def specSignedHorizontal (p : Party) : ℚ :=
  match p.politicalPosition.horizontal with
  | none => 0
  | some a =>
    if a.direction = str "rechts" then a.value
    else if a.direction = str "links" then -a.value
    else 0

/-- The signed vertical scalar as the specification describes it:
"conservatief" maps to the positive value, "progressief" to the
negative one, and a missing axis contributes 0. -/
def specSignedVertical (p : Party) : ℚ :=
  match p.politicalPosition.vertical with
  | none => 0
  | some a =>
    if a.direction = str "conservatief" then a.value
    else if a.direction = str "progressief" then -a.value
    else 0

/-- Party A of the signed-average example in the specification:
horizontal 40% rechts, weight 10. -/
def exA : Party :=
  { name := str "Partij A"
  , shortName := str "A"
  , position := { x := 0, y := 0 }
  , politicalPosition :=
      { horizontal := some { value := 40, direction := str "rechts" }
      , vertical := none }
  , electionResults2025 := some { seats := 10 } }

/-- Party B of the signed-average example in the specification:
horizontal 20% links, weight 10. -/
def exB : Party :=
  { name := str "Partij B"
  , shortName := str "B"
  , position := { x := 0, y := 0 }
  , politicalPosition :=
      { horizontal := some { value := 20, direction := str "links" }
      , vertical := none }
  , electionResults2025 := some { seats := 10 } }

/-- C3: on every non-empty selection whose direction labels come from
the two binary label sets, the rendered statistics are the weighted
means of the specification's signed scalars, relabelled by sign with
magnitude the absolute value; and on the specification's concrete
example the weighted mean is +10, displayed as 10% rechts. -/
theorem updateCoalitionStats_signed_average (selected : List Party) (useWeighted : Bool)
    (hne : selected ≠ [])
    (hdir : ∀ p ∈ selected,
      (∀ a, p.politicalPosition.horizontal = some a →
        a.direction = str "rechts" ∨ a.direction = str "links") ∧
      (∀ a, p.politicalPosition.vertical = some a →
        a.direction = str "conservatief" ∨ a.direction = str "progressief")) :
    (updateCoalitionStats selected useWeighted =
      let avgH := (selected.map fun p => specSignedHorizontal p * statsWeight useWeighted p).sum /
                    signedTotalWeight selected useWeighted
      let avgV := (selected.map fun p => specSignedVertical p * statsWeight useWeighted p).sum /
                    signedTotalWeight selected useWeighted
      some { avgHorizontal := avgH
           , avgVertical := avgV
           , horizontalLabel := if 0 ≤ avgH then str "rechts" else str "links"
           , verticalLabel := if 0 ≤ avgV then str "conservatief" else str "progressief"
           , horizontalValue := |avgH|
           , verticalValue := |avgV| }) ∧
    updateCoalitionStats [exA, exB] true =
      some { avgHorizontal := 10
           , avgVertical := 0
           , horizontalLabel := str "rechts"
           , verticalLabel := str "conservatief"
           , horizontalValue := 10
           , verticalValue := 0 } := by
  have hrl : str "links" ≠ str "rechts" := by decide
  have hpc : str "progressief" ≠ str "conservatief" := by decide
  constructor
  · have hl : selected.length ≠ 0 := fun hh => hne (List.length_eq_zero.mp hh)
    have hH : (selected.map fun p => horizontalSigned p * statsWeight useWeighted p) =
        selected.map fun p => specSignedHorizontal p * statsWeight useWeighted p := by
      refine List.map_congr_left fun p hp => ?_
      cases hh : p.politicalPosition.horizontal with
      | none => simp [horizontalSigned, specSignedHorizontal, hh]
      | some a =>
        rcases (hdir p hp).1 a hh with hr | hlk
        · simp [horizontalSigned, specSignedHorizontal, hh, hr]
        · simp [horizontalSigned, specSignedHorizontal, hh, hlk, hrl]
    have hV : (selected.map fun p => verticalSigned p * statsWeight useWeighted p) =
        selected.map fun p => specSignedVertical p * statsWeight useWeighted p := by
      refine List.map_congr_left fun p hp => ?_
      cases hh : p.politicalPosition.vertical with
      | none => simp [verticalSigned, specSignedVertical, hh]
      | some a =>
        rcases (hdir p hp).2 a hh with hc | hpr
        · simp [verticalSigned, specSignedVertical, hh, hc]
        · simp [verticalSigned, specSignedVertical, hh, hpr, hpc]
    simp only [updateCoalitionStats, if_neg hl, hH, hV]
  · simp [updateCoalitionStats, signedTotalWeight, statsWeight, horizontalSigned,
      verticalSigned, exA, exB, hrl]
    norm_num

/-- Witness for C3 at the specification's two-party example. -/
theorem updateCoalitionStats_signed_average_witness :
    updateCoalitionStats [exA, exB] true =
      let avgH := (([exA, exB] : List Party).map
          fun p => specSignedHorizontal p * statsWeight true p).sum /
            signedTotalWeight [exA, exB] true
      let avgV := (([exA, exB] : List Party).map
          fun p => specSignedVertical p * statsWeight true p).sum /
            signedTotalWeight [exA, exB] true
      some { avgHorizontal := avgH
           , avgVertical := avgV
           , horizontalLabel := if 0 ≤ avgH then str "rechts" else str "links"
           , verticalLabel := if 0 ≤ avgV then str "conservatief" else str "progressief"
           , horizontalValue := |avgH|
           , verticalValue := |avgV| } := by
  have hdir : ∀ p ∈ ([exA, exB] : List Party),
      (∀ a, p.politicalPosition.horizontal = some a →
        a.direction = str "rechts" ∨ a.direction = str "links") ∧
      (∀ a, p.politicalPosition.vertical = some a →
        a.direction = str "conservatief" ∨ a.direction = str "progressief") := by
    intro p hp
    rcases List.mem_cons.mp hp with rfl | hp2
    · exact ⟨fun a ha => Or.inl (by rw [← Option.some.inj ha]),
        fun a ha => by exact absurd ha (by simp [exA])⟩
    · rcases List.mem_cons.mp hp2 with rfl | hp3
      · exact ⟨fun a ha => Or.inr (by rw [← Option.some.inj ha]),
          fun a ha => by exact absurd ha (by simp [exB])⟩
      · cases hp3
  exact (updateCoalitionStats_signed_average [exA, exB] true
    (List.cons_ne_nil _ _) hdir).1

/-- Counterexample to C6 as stated: one selected party with zero
recorded seats makes the weighted divisor of `updateCoalitionStats`
zero (in the 2025 data NSC has exactly zero seats). -/
theorem signedTotalWeight_zero_counterexample :
    ([nsc] : List Party) ≠ [] ∧ signedTotalWeight [nsc] true = 0 := by
  refine ⟨List.cons_ne_nil _ _, ?_⟩
  simp [signedTotalWeight, statsWeight, nsc]

/-- C6 (amended): the divisor of the signed-axis averages is positive
for every non-empty selection with nonnegative seat data, provided the
mode is unweighted or some selected party lacks seat data or has
positive seats; only a weighted selection made up entirely of
zero-seat parties escapes this. -/
theorem signedTotalWeight_pos (selected : List Party) (useWeighted : Bool)
    (hne : selected ≠ [])
    (hnn : ∀ p ∈ selected, ∀ er, p.electionResults2025 = some er → 0 ≤ er.seats)
    (h : useWeighted = false ∨ ∃ p ∈ selected, p.electionResults2025 = none ∨
          ∃ er, p.electionResults2025 = some er ∧ 0 < er.seats) :
    0 < signedTotalWeight selected useWeighted := by
  have hwnn : ∀ x ∈ selected.map (statsWeight useWeighted), 0 ≤ x := by
    intro x hx
    rcases List.mem_map.mp hx with ⟨p, hp, rfl⟩
    cases useWeighted with
    | false => norm_num [statsWeight]
    | true =>
      cases her : p.electionResults2025 with
      | none => simp [statsWeight, her]
      | some er => simpa [statsWeight, her] using hnn p hp er her
  rcases h with rfl | ⟨p, hp, hcase⟩
  · have hones : selected.map (statsWeight false) = selected.map fun _ => (1 : ℚ) := by
      refine List.map_congr_left fun p _ => ?_
      cases p.electionResults2025 <;> rfl
    have hl : selected.length ≠ 0 := fun hh => hne (List.length_eq_zero.mp hh)
    rw [signedTotalWeight, hones, List.map_const']
    rw [List.sum_replicate, nsmul_eq_mul, mul_one]
    exact_mod_cast Nat.pos_of_ne_zero hl
  · have hpos : 0 < statsWeight useWeighted p := by
      rcases hcase with hnone | ⟨er, her, herpos⟩
      · cases useWeighted <;> simp [statsWeight, hnone]
      · cases useWeighted with
        | false => norm_num [statsWeight]
        | true => simpa [statsWeight, her] using herpos
    exact sum_pos_of_mem_pos _ hwnn _ (List.mem_map_of_mem _ hp) hpos

/-- Witness for the amended C6: NSC (zero seats) together with Volt
(one seat) in weighted mode. -/
theorem signedTotalWeight_pos_witness :
    0 < signedTotalWeight [nsc, volt] true := by
  apply signedTotalWeight_pos
  · exact List.cons_ne_nil _ _
  · apply seats_nonneg_lift
    simp only [List.forall_mem_cons, List.forall_mem_nil]
    norm_num [nsc, volt, seatsOrZero]
  · refine Or.inr ⟨volt, ?_, Or.inr ⟨{ seats := 1 }, rfl, by norm_num⟩⟩
    simp

/-- JavaScript toUpperCase restricted to ASCII letters, per code point
(sufficient for the short names involved). -/
def upChar (c : Nat) : Nat := if 97 ≤ c ∧ c ≤ 122 then c - 32 else c

/-- JavaScript toUpperCase on a string of code points. -/
def upperStr (s : Str) : Str := s.map upChar

/-- Whitespace test backing JavaScript trim (code point 44 is the comma
and is not whitespace). -/
def isWs (c : Nat) : Bool :=
  decide (c = 9 ∨ c = 10 ∨ c = 11 ∨ c = 12 ∨ c = 13 ∨ c = 32 ∨ c = 160 ∨
    c = 8232 ∨ c = 8233 ∨ c = 65279)

/-- JavaScript String.prototype.trim: strip whitespace from both ends. -/
def trimStr (s : Str) : Str := ((s.dropWhile isWs).reverse.dropWhile isWs).reverse

/-- JavaScript Array.prototype.join with separator comma (code 44), as
used on the short-name list in `updateQueryParams`. -/
def joinComma : List Str → Str
  | [] => []
  | [s] => s
  | s :: ss => s ++ 44 :: joinComma ss

/-- JavaScript String.prototype.split on the comma, as used in
`getQueryParties`. -/
def splitComma : Str → List Str
  | [] => [[]]
  | c :: cs =>
    match splitComma cs with
    | [] => [[]]
    | s :: ss => if c = 44 then [] :: s :: ss else (c :: s) :: ss

/-- `UIController.getQueryParties` (parser.js lines 73-80): the empty
list when the parameter is absent or empty (both falsy), otherwise the
comma-separated pieces, trimmed and uppercased. -/
def getQueryParties (partiesParam : Option Str) : List Str :=
  match partiesParam with
  | none => []
  | some q => if q = [] then [] else (splitComma q).map fun p => upperStr (trimStr p)

/-- `UIController.preSelectFromQuery` (parser.js lines 110-129) followed
by the checkbox re-scan of `handlePartySelection` on a freshly loaded
page (all checkboxes initially unchecked): party i ends up selected
exactly when its uppercased short name occurs among the query parties. -/
def preSelectFromQuery (parties : List Party) (partiesParam : Option Str) : List Bool :=
  parties.map fun p => decide (upperStr p.shortName ∈ getQueryParties partiesParam)

/-- The ordered short names of the checked parties, as built by
`handlePartySelection` (parser.js lines 209-219). -/
def selectedShortNames (parties : List Party) (sel : List Bool) : List Str :=
  ((sel.zip parties).filter fun x => x.1).map fun x => x.2.shortName

/-- `UIController.updateQueryParams` (parser.js lines 246-259),
abstracted to the resulting value of the parties query key: the key is
deleted (absent, `none`) when no party is selected, otherwise set to
the comma-joined short names. -/
def updateQueryParams (selectedShortNames : List Str) : Option Str :=
  if selectedShortNames.length = 0 then none
  else some (joinComma selectedShortNames)

/-- Uppercasing fixes the comma and maps nothing else to it. -/
theorem upChar_eq_comma (c : Nat) : upChar c = 44 ↔ c = 44 := by
  unfold upChar
  split <;> omega

/-- Splitting never produces the empty list of pieces. -/
theorem splitComma_ne_nil : ∀ s : Str, splitComma s ≠ [] := by
  intro s
  cases s with
  | nil => simp [splitComma]
  | cons c cs =>
    simp only [splitComma]
    cases h : splitComma cs with
    | nil => simp
    | cons a as => by_cases hc : c = 44 <;> simp [hc]

/-- A comma-free string splits to the single piece it is. -/
theorem splitComma_no_comma : ∀ s : Str, 44 ∉ s → splitComma s = [s] := by
  intro s
  induction s with
  | nil => intro _; rfl
  | cons c cs ih =>
    intro h
    have hc : c ≠ 44 := fun hh => h (hh ▸ List.mem_cons_self c cs)
    have hcs : (44 : Nat) ∉ cs := fun hh => h (List.mem_cons_of_mem c hh)
    simp only [splitComma, ih hcs]
    simp [hc]

/-- Unfolding equation for `splitComma` on a cons cell. -/
theorem splitComma_cons (c : Nat) (cs : Str) :
    splitComma (c :: cs) =
      match splitComma cs with
      | [] => [[]]
      | s :: ss => if c = 44 then [] :: s :: ss else (c :: s) :: ss := rfl

/-- Splitting after a comma-free prefix and a comma produces the prefix
as the first piece. -/
theorem splitComma_comma_append (s t : Str) (h : 44 ∉ s) :
    splitComma (s ++ 44 :: t) = s :: splitComma t := by
  induction s with
  | nil =>
    simp only [List.nil_append, splitComma]
    cases ht : splitComma t with
    | nil => exact absurd ht (splitComma_ne_nil t)
    | cons a as => simp
  | cons c cs ih =>
    have hc : c ≠ 44 := fun hh => h (hh ▸ List.mem_cons_self c cs)
    have hcs : (44 : Nat) ∉ cs := fun hh => h (List.mem_cons_of_mem c hh)
    rw [List.cons_append, splitComma_cons, ih hcs]
    simp [hc]

/-- Splitting inverts joining on comma-free pieces. -/
theorem splitComma_joinComma : ∀ (n : Str) (ns : List Str), 44 ∉ n → (∀ s ∈ ns, 44 ∉ s) →
    splitComma (joinComma (n :: ns)) = n :: ns := by
  intro n ns
  induction ns generalizing n with
  | nil => intro hn _; exact splitComma_no_comma n hn
  | cons m ms ih =>
    intro hn hms
    have hjoin : joinComma (n :: m :: ms) = n ++ 44 :: joinComma (m :: ms) := rfl
    rw [hjoin, splitComma_comma_append _ _ hn,
      ih m (hms m (List.mem_cons_self m ms)) fun s hs => hms s (List.mem_cons_of_mem m hs)]

/-- Uppercasing commutes with splitting, because it fixes the comma. -/
theorem splitComma_upperStr : ∀ s : Str, splitComma (upperStr s) = (splitComma s).map upperStr := by
  intro s
  induction s with
  | nil => rfl
  | cons c cs ih =>
    have hcons : upperStr (c :: cs) = upChar c :: upperStr cs := rfl
    rw [hcons]
    simp only [splitComma, ih]
    cases h : splitComma cs with
    | nil => exact absurd h (splitComma_ne_nil cs)
    | cons a as =>
      simp only [List.map_cons]
      by_cases hc : c = 44
      · rw [if_pos ((upChar_eq_comma c).mpr hc), if_pos hc]
        simp [upperStr]
      · rw [if_neg fun hh => hc ((upChar_eq_comma c).mp hh), if_neg hc]
        simp [upperStr]

/-- Uppercasing preserves the whitespace test: ASCII letters are not
whitespace before or after the case change. -/
theorem isWs_upChar (c : Nat) : isWs (upChar c) = isWs c := by
  unfold upChar isWs
  split
  · rw [decide_eq_decide]
    omega
  · rfl

/-- Uppercasing commutes with trimming. -/
theorem trimStr_upperStr (s : Str) : trimStr (upperStr s) = upperStr (trimStr s) := by
  have hcomp : (isWs ∘ upChar) = isWs := funext isWs_upChar
  unfold trimStr upperStr
  rw [List.dropWhile_map, hcomp, ← List.map_reverse, List.dropWhile_map, hcomp,
    ← List.map_reverse]

/-- Joining a non-empty first piece yields a non-empty string. -/
theorem joinComma_ne_nil (n : Str) (ns : List Str) (hn : n ≠ []) :
    joinComma (n :: ns) ≠ [] := by
  cases ns with
  | nil => exact hn
  | cons m ms =>
    simp only [joinComma]
    simp [hn]

/-- Up to case, the trimmed uppercased pieces of any case variant of the
joined names are exactly the uppercased names. -/
theorem splitComma_case_variant (names : List Str) (q : Str)
    (hne : names ≠ [])
    (hcomma : ∀ s ∈ names, 44 ∉ s)
    (htrim : ∀ s ∈ names, trimStr s = s)
    (hq : upperStr q = upperStr (joinComma names)) :
    (splitComma q).map (fun p => upperStr (trimStr p)) = names.map upperStr := by
  obtain ⟨n, ns, rfl⟩ := List.exists_cons_of_ne_nil hne
  have hsplit : (splitComma q).map upperStr = (n :: ns).map upperStr := by
    rw [← splitComma_upperStr, hq, splitComma_upperStr,
      splitComma_joinComma n ns (hcomma n (List.mem_cons_self n ns))
        fun s hs => hcomma s (List.mem_cons_of_mem n hs)]
  calc (splitComma q).map (fun p => upperStr (trimStr p))
      = (splitComma q).map (fun p => trimStr (upperStr p)) :=
        List.map_congr_left fun p _ => (trimStr_upperStr p).symm
    _ = ((splitComma q).map upperStr).map trimStr := by
        simp [List.map_map, Function.comp]
    _ = ((n :: ns).map upperStr).map trimStr := by rw [hsplit]
    _ = (n :: ns).map (fun s => trimStr (upperStr s)) := by
        simp [List.map_map, Function.comp]
    _ = (n :: ns).map (fun s => upperStr (trimStr s)) :=
        List.map_congr_left fun s _ => trimStr_upperStr s
    _ = (n :: ns).map upperStr :=
        List.map_congr_left fun s hs => by rw [htrim s hs]

/-- Every selected short name is the short name of some party in the
table. -/
theorem selectedShortNames_mem (parties : List Party) (sel : List Bool) :
    ∀ s ∈ selectedShortNames parties sel, ∃ p ∈ parties, s = p.shortName := by
  intro s hs
  rcases List.mem_map.mp hs with ⟨x, hx, rfl⟩
  obtain ⟨b, p⟩ := x
  have hxz : (b, p) ∈ sel.zip parties := List.mem_of_mem_filter hx
  exact ⟨p, (List.of_mem_zip hxz).2, rfl⟩

/-- A selection with at least one checked box yields a non-empty
short-name list. -/
theorem selectedShortNames_ne_nil : ∀ (parties : List Party) (sel : List Bool),
    sel.length = parties.length → true ∈ sel →
    selectedShortNames parties sel ≠ [] := by
  intro parties
  induction parties with
  | nil =>
    intro sel hlen htrue
    cases sel with
    | nil => cases htrue
    | cons b bs => simp at hlen
  | cons p pt ih =>
    intro sel hlen htrue
    cases sel with
    | nil => cases htrue
    | cons b bs =>
      have hlen2 : bs.length = pt.length := by simpa using hlen
      cases b with
      | true => simp [selectedShortNames, List.filter_cons]
      | false =>
        have hbs : true ∈ bs := by
          rcases List.mem_cons.mp htrue with h | h
          · exact Bool.noConfusion h
          · exact h
        have := ih bs hlen2 hbs
        simpa [selectedShortNames, List.filter_cons] using this

/-- On a party table whose uppercased short names are pairwise
distinct, testing each uppercased short name for membership in the
uppercased selected names recovers exactly the checkbox states. -/
theorem restore_eq_sel : ∀ (parties : List Party) (sel : List Bool),
    sel.length = parties.length →
    (parties.map fun p => upperStr p.shortName).Nodup →
    (parties.map fun p =>
      decide (upperStr p.shortName ∈ (selectedShortNames parties sel).map upperStr)) = sel := by
  intro parties
  induction parties with
  | nil =>
    intro sel hlen _
    cases sel with
    | nil => rfl
    | cons b bs => simp at hlen
  | cons p pt ih =>
    intro sel hlen hnd
    cases sel with
    | nil => simp at hlen
    | cons b bs =>
      have hlen2 : bs.length = pt.length := by simpa using hlen
      have hnotin : upperStr p.shortName ∉ pt.map fun q => upperStr q.shortName :=
        (List.nodup_cons.mp hnd).1
      have hnd2 : (pt.map fun q => upperStr q.shortName).Nodup := (List.nodup_cons.mp hnd).2
      have hsel : selectedShortNames (p :: pt) (b :: bs) =
          if b then p.shortName :: selectedShortNames pt bs else selectedShortNames pt bs := by
        cases b <;> simp [selectedShortNames, List.filter_cons]
      have hnotinsel : upperStr p.shortName ∉ (selectedShortNames pt bs).map upperStr := by
        intro hmem
        rcases List.mem_map.mp hmem with ⟨s, hs, hequ⟩
        rcases selectedShortNames_mem pt bs s hs with ⟨q, hq, rfl⟩
        exact hnotin (hequ ▸ List.mem_map_of_mem (fun r => upperStr r.shortName) hq)
      have hhead : decide (upperStr p.shortName ∈
          (selectedShortNames (p :: pt) (b :: bs)).map upperStr) = b := by
        rw [hsel]
        cases b with
        | true => simp
        | false => simp [hnotinsel]
      have htail : (pt.map fun q =>
          decide (upperStr q.shortName ∈ (selectedShortNames (p :: pt) (b :: bs)).map upperStr)) =
          pt.map fun q =>
            decide (upperStr q.shortName ∈ (selectedShortNames pt bs).map upperStr) := by
        refine List.map_congr_left fun q hq => ?_
        rw [decide_eq_decide, hsel]
        cases b with
        | false => simp
        | true =>
          simp only [if_true, List.map_cons, List.mem_cons]
          constructor
          · rintro (heq | hmem)
            · exact absurd (heq ▸ List.mem_map_of_mem (fun r => upperStr r.shortName) hq) hnotin
            · exact hmem
          · exact fun hmem => Or.inr hmem
      simp only [List.map_cons, hhead, htail, ih bs hlen2 hnd2]

/-- C1: restoring the selection from the query parameter after writing
it reproduces exactly the selection that produced the names, regardless
of the letter case used in the URL, for every selection with at least
one checked box over a party table whose short names are pairwise
distinct modulo case, comma-free, free of surrounding whitespace, and
non-empty — all properties of the known short names. -/
theorem url_roundtrip (parties : List Party) (sel : List Bool) (q : Str)
    (hlen : sel.length = parties.length)
    (hchecked : true ∈ sel)
    (hnd : (parties.map fun p => upperStr p.shortName).Nodup)
    (hcomma : ∀ p ∈ parties, (44 : Nat) ∉ p.shortName)
    (htrim : ∀ p ∈ parties, trimStr p.shortName = p.shortName)
    (hnnil : ∀ p ∈ parties, p.shortName ≠ [])
    (hq : upperStr q = upperStr (joinComma (selectedShortNames parties sel))) :
    updateQueryParams (selectedShortNames parties sel) =
      some (joinComma (selectedShortNames parties sel)) ∧
    preSelectFromQuery parties (some q) = sel := by
  have hne : selectedShortNames parties sel ≠ [] :=
    selectedShortNames_ne_nil parties sel hlen hchecked
  have hnames := selectedShortNames_mem parties sel
  have hcommaN : ∀ s ∈ selectedShortNames parties sel, (44 : Nat) ∉ s := by
    intro s hs
    rcases hnames s hs with ⟨p, hp, rfl⟩
    exact hcomma p hp
  have htrimN : ∀ s ∈ selectedShortNames parties sel, trimStr s = s := by
    intro s hs
    rcases hnames s hs with ⟨p, hp, rfl⟩
    exact htrim p hp
  have hjoin_ne : joinComma (selectedShortNames parties sel) ≠ [] := by
    obtain ⟨n, ns, heq⟩ := List.exists_cons_of_ne_nil hne
    rw [heq]
    refine joinComma_ne_nil n ns ?_
    have hnmem : n ∈ selectedShortNames parties sel := by
      rw [heq]
      exact List.mem_cons_self n ns
    rcases hnames n hnmem with ⟨p, hp, hpn⟩
    rw [hpn]
    exact hnnil p hp
  have hqne : q ≠ [] := by
    intro hq0
    subst hq0
    have hup : upperStr (joinComma (selectedShortNames parties sel)) = [] := hq.symm
    have hlen0 : (joinComma (selectedShortNames parties sel)).length = 0 := by
      have := congrArg List.length hup
      simpa [upperStr] using this
    exact hjoin_ne (List.length_eq_zero.mp hlen0)
  constructor
  · have hl : (selectedShortNames parties sel).length ≠ 0 :=
      fun hh => hne (List.length_eq_zero.mp hh)
    simp [updateQueryParams, hl]
  · have hpieces :=
      splitComma_case_variant (selectedShortNames parties sel) q hne hcommaN htrimN hq
    have hget : getQueryParties (some q) = (selectedShortNames parties sel).map upperStr := by
      simp only [getQueryParties, if_neg hqne, hpieces]
    simp only [preSelectFromQuery, hget]
    exact restore_eq_sel parties sel hlen hnd

/-- Witness for C1: VVD and PvdA-GL selected out of a three-party
table, restored from an all-lowercase URL value. -/
theorem url_roundtrip_witness :
    updateQueryParams (selectedShortNames [vvd, d66, pvdagl] [true, false, true]) =
      some (joinComma (selectedShortNames [vvd, d66, pvdagl] [true, false, true])) ∧
    preSelectFromQuery [vvd, d66, pvdagl] (some (str "vvd,pvda-gl")) =
      [true, false, true] :=
  url_roundtrip [vvd, d66, pvdagl] [true, false, true] (str "vvd,pvda-gl")
    (by decide) (by decide) (by decide) (by decide) (by decide) (by decide) (by decide)

/-- C9: an empty selection removes the parties key entirely — the key
is absent, never present with an empty value — while a non-empty
selection sets it to the comma-joined short names. -/
theorem updateQueryParams_empty_removes (names : List Str) (hne : names ≠ []) :
    updateQueryParams [] = none ∧
    (∀ v : Str, updateQueryParams [] ≠ some v) ∧
    updateQueryParams names = some (joinComma names) := by
  refine ⟨rfl, fun v h => Option.noConfusion h, ?_⟩
  have hl : names.length ≠ 0 := fun hh => hne (List.length_eq_zero.mp hh)
  simp [updateQueryParams, hl]

/-- Witness for C9 at a concrete one-name list. -/
theorem updateQueryParams_empty_removes_witness :
    updateQueryParams [] = none ∧
    updateQueryParams [str "VVD"] = some (joinComma [str "VVD"]) :=
  ⟨(updateQueryParams_empty_removes [str "VVD"] (List.cons_ne_nil _ _)).1,
   (updateQueryParams_empty_removes [str "VVD"] (List.cons_ne_nil _ _)).2.2⟩

end Kieskompas
